import Mathlib

/-
Shallow embedding of `src/main.rs` from the RegisterMachines repository:
a counter/register machine evaluator together with a Gödel-style codec
(pairing functions, list codec, program codec).

Modelling conventions:
* `BigUint` (arbitrary-precision non-negative integers) is `Nat`.
* `Register` is Rust `u64`; `Label` is Rust `usize` (modelled as 64 bits
  wide, the usual target).  Arithmetic performed by the source in `u64`
  is embedded with an explicit `% 2 ^ 64`.
* `HashMap<Register, BigUint>` is an association list with unique keys
  (`Regs`); `regGet` is `HashMap::get`, `regInsert` captures
  `entry(r).or_insert(v)` / overwriting insertion.
* The Rust `while` loops that can run unboundedly are embedded as
  fuel-indexed functions returning `Option`/`none` when the fuel runs
  out; lemmas below show the chosen fuel is always sufficient on the
  inputs where the source loop terminates.
* The `.expect(...)` panics of `to_u64`/`to_usize` inside
  `decode_list_to_program` are embedded as an `Except ConvError`
  result: a panic aborts the whole decode call and yields no program.
-/

namespace RegisterMachines

/-- The three-variant instruction set of `src/main.rs`
(`Add(Register, Label)`, `Sub(Register, Label, Label)`, `Halt`);
the spec calls these `Increment`, `DecrementOrBranch`, `Halt`. -/
inductive Instruction where
  | Add : Nat → Nat → Instruction
  | Sub : Nat → Nat → Nat → Instruction
  | Halt : Instruction
deriving DecidableEq, Repr

/-- Register file: association list with unique keys, modelling
`HashMap<Register, BigUint>`. -/
abbrev Regs := List (Nat × Nat)

/-- Lookup of a register (`HashMap::get`): `none` when the key is absent. -/
def regGet : Regs → Nat → Option Nat
  | [], _ => none
  | (k, w) :: t, r => if k = r then some w else regGet t r

/-- Insertion that overwrites an existing entry for the key and otherwise
appends; used to model `entry(r).or_insert(..)` updates of the `HashMap`. -/
def regInsert : Regs → Nat → Nat → Regs
  | [], r, v => [(r, v)]
  | (k, w) :: t, r, v => if k = r then (k, v) :: t else (k, w) :: regInsert t r v

/-- Machine state `(Label, HashMap<Register, BigUint>)`. -/
abbrev State := Nat × Regs

/-- One iteration of the `while` loop in `eval_program`: `none` means the
loop stops (label fell off the end, or the fetched instruction is `Halt`),
`some s` is the state after executing one `Add`/`Sub` instruction. -/
def step (program : List Instruction) (s : State) : Option State :=
  if h : s.1 < program.length then
    match program.get ⟨s.1, h⟩ with
    | Instruction.Add r l =>
        some (l, regInsert s.2 r ((regGet s.2 r).getD 0 + 1))
    | Instruction.Sub r l1 l2 =>
        let v := (regGet s.2 r).getD 0
        let m := regInsert s.2 r v
        if v = 0 then some (l2, m) else some (l1, regInsert m r (v - 1))
    | Instruction.Halt => none
  else none

/-- Fuelled run of `eval_program`'s loop: `some s` when the loop stops in
at most `fuel` iterations with final state `s`, `none` when the fuel is
exhausted first (the source loop may genuinely run forever). -/
def evalProgramFuel : Nat → List Instruction → State → Option State
  | 0, _, _ => none
  | fuel + 1, p, s =>
    match step p s with
    | none => some s
    | some s' => evalProgramFuel fuel p s'

/-- `EvalProgram p s s'` holds when `eval_program(p, s)` terminates and
returns `s'`. -/
def EvalProgram (p : List Instruction) (s s' : State) : Prop :=
  ∃ fuel, evalProgramFuel fuel p s = some s'

/-- `encode_pair1(x, y) = 2^x * (2*y + 1)` of the source. -/
def encode_pair1 (x y : Nat) : Nat :=
  2 ^ x * (2 * y + 1)

/-- `encode_pair2(x, y) = encode_pair1(x, y) - 1` of the source. -/
def encode_pair2 (x y : Nat) : Nat :=
  encode_pair1 x y - 1

/-- Per-instruction encoding performed inside `encode_program_to_list`.
The doublings `2 * r` and `2 * r + 1` happen in Rust `u64` arithmetic
before the promotion to `BigUint`, hence the explicit `% 2 ^ 64`. -/
def encodeInstr : Instruction → Nat
  | Instruction.Add r l => encode_pair1 ((2 * r) % 2 ^ 64) l
  | Instruction.Sub r l1 l2 =>
      encode_pair1 (((2 * r) % 2 ^ 64 + 1) % 2 ^ 64) (encode_pair2 l1 l2)
  | Instruction.Halt => 0

/-- `encode_program_to_list`: element-wise encoding of the program. -/
def encode_program_to_list (program : List Instruction) : List Nat :=
  program.map encodeInstr

/-- Fuelled run of the loop `while tmp % 2 == 0 { x += 1; tmp /= 2 }`
shared by `decode_pair1` and `decode_godel_to_list`.  On `tmp = 0` the
source loop never exits, so every fuel yields `none`. -/
def stripTwosFuel : Nat → Nat → Nat → Option (Nat × Nat)
  | 0, _, _ => none
  | fuel + 1, x, tmp =>
    if tmp % 2 = 0 then stripTwosFuel fuel (x + 1) (tmp / 2)
    else some (x, tmp)

/-- `decode_pair1(a)`: strip the factors of two of `a` counting them as
`x`, then `y = (odd part - 1) / 2`.  Fuel `a` is sufficient whenever
`a ≠ 0` (proved below); the `none` fallback is never reached then.  On
`a = 0` the source diverges; here the fallback value `(0, 0)` is
returned, and no result below depends on it. -/
def decode_pair1 (a : Nat) : Nat × Nat :=
  match stripTwosFuel a 0 a with
  | some (x, tmp) => (x, (tmp - 1) / 2)
  | none => (0, 0)

/-- `decode_pair2(a) = decode_pair1(a + 1)` of the source. -/
def decode_pair2 (a : Nat) : Nat × Nat :=
  decode_pair1 (a + 1)

/-- The two conversion failures of `decode_list_to_program`:
`BigUint::to_u64` (register) and `BigUint::to_usize` (label) return
`None` when the value exceeds the fixed-width range, and the source
`.expect`s them. -/
inductive ConvError where
  | overflowU64 : ConvError
  | overflowUsize : ConvError
deriving DecidableEq, Repr

/-- `BigUint::to_u64().expect(..)`: succeeds exactly below `2 ^ 64`. -/
def toU64 (n : Nat) : Except ConvError Nat :=
  if n < 2 ^ 64 then Except.ok n else Except.error ConvError.overflowU64

/-- `BigUint::to_usize().expect(..)` with `usize` modelled as 64 bits. -/
def toUsize (n : Nat) : Except ConvError Nat :=
  if n < 2 ^ 64 then Except.ok n else Except.error ConvError.overflowUsize

/-- Per-element decoding performed inside `decode_list_to_program`:
`0` is `Halt`; otherwise unpair, branch on the parity of the first
component, and convert registers/labels into their fixed-width types. -/
def decodeInstr (p : Nat) : Except ConvError Instruction :=
  if p = 0 then Except.ok Instruction.Halt
  else
    let y := (decode_pair1 p).1
    let z := (decode_pair1 p).2
    if y % 2 = 0 then
      match toU64 (y / 2) with
      | Except.error e => Except.error e
      | Except.ok r =>
        match toUsize z with
        | Except.error e => Except.error e
        | Except.ok l => Except.ok (Instruction.Add r l)
    else
      let j := (decode_pair2 z).1
      let k := (decode_pair2 z).2
      match toU64 ((y - 1) / 2) with
      | Except.error e => Except.error e
      | Except.ok r =>
        match toUsize j with
        | Except.error e => Except.error e
        | Except.ok l1 =>
          match toUsize k with
          | Except.error e => Except.error e
          | Except.ok l2 => Except.ok (Instruction.Sub r l1 l2)

/-- `decode_list_to_program`: element-wise decoding, aborting at the
first conversion failure (the source panics there, producing no
program). -/
def decode_list_to_program : List Nat → Except ConvError (List Instruction)
  | [] => Except.ok []
  | p :: rest =>
    match decodeInstr p with
    | Except.error e => Except.error e
    | Except.ok i =>
      match decode_list_to_program rest with
      | Except.error e => Except.error e
      | Except.ok t => Except.ok (i :: t)

/-- Decidable equality of decode results, so that concrete decode runs
can be checked by `decide`. -/
instance : DecidableEq (Except ConvError (List Instruction)) := fun a b =>
  match a, b with
  | Except.ok x, Except.ok y =>
      decidable_of_iff (x = y) (by simp [Except.ok.injEq])
  | Except.error e, Except.error f =>
      decidable_of_iff (e = f) (by simp [Except.error.injEq])
  | Except.ok _, Except.error _ => isFalse (by simp)
  | Except.error _, Except.ok _ => isFalse (by simp)

/-- Fuelled run of the outer loop of `decode_godel_to_list`
(`while !tmp.is_zero() { strip twos into x; push x; tmp = (tmp-1)/2 }`).
The inner strip loop runs with fuel `tmp`, sufficient since `tmp ≠ 0`
there; outer fuel `n` is sufficient for input `n` since the remainder
strictly decreases (proved below). -/
def decode_godel_fuel : Nat → Nat → Option (List Nat)
  | 0, tmp => if tmp = 0 then some [] else none
  | fuel + 1, tmp =>
    if tmp = 0 then some []
    else
      match stripTwosFuel tmp 0 tmp with
      | none => none
      | some (x, m) =>
        match decode_godel_fuel fuel ((m - 1) / 2) with
        | none => none
        | some rest => some (x :: rest)

/-- `decode_godel_to_list(a)`: total wrapper; fuel `a` is sufficient for
every input `a` (proved below), so the `[]` fallback is never reached. -/
def decode_godel_to_list (a : Nat) : List Nat :=
  (decode_godel_fuel a a).getD []

/-- `encode_list_to_godel`: right-to-left fold with `encode_pair1`
(`l.iter().rev().fold(zero, |acc, v| encode_pair1(v, acc))`). -/
def encode_list_to_godel (l : List Nat) : Nat :=
  l.reverse.foldl (fun acc v => encode_pair1 v acc) 0

/-- Range check under which an instruction survives the encode/decode
round trip: registers small enough that the `u64` doubling cannot
overflow, labels representable in `usize`. -/
def Instruction.encodableB : Instruction → Bool
  | Instruction.Add r l => decide (r < 2 ^ 63) && decide (l < 2 ^ 64)
  | Instruction.Sub r l1 l2 =>
      decide (r < 2 ^ 63) && decide (l1 < 2 ^ 64) && decide (l2 < 2 ^ 64)
  | Instruction.Halt => true

/-- The six-instruction example program of the repository's
`program_produces_correct_state` test. -/
def sampleProgram : List Instruction :=
  [Instruction.Sub 1 2 1, Instruction.Halt, Instruction.Sub 1 3 4,
    Instruction.Sub 1 5 4, Instruction.Halt, Instruction.Add 0 0]

/-
Helper lemmas about the pairing codec.
-/

theorem encode_pair1_pos (x y : Nat) : 0 < encode_pair1 x y := by
  unfold encode_pair1
  positivity

theorem lt_encode_pair1 (x y : Nat) : y < encode_pair1 x y := by
  unfold encode_pair1
  have h1 : 2 * y + 1 ≤ 2 ^ x * (2 * y + 1) :=
    Nat.le_mul_of_pos_left _ (pow_pos (by norm_num) x)
  omega

theorem stripTwosFuel_spec :
    ∀ tmp : Nat, tmp ≠ 0 →
      ∃ v m, m % 2 = 1 ∧ tmp = 2 ^ v * m ∧
        ∀ fuel, tmp ≤ fuel → ∀ x, stripTwosFuel fuel x tmp = some (x + v, m) := by
  intro tmp
  induction tmp using Nat.strong_induction_on with
  | _ tmp ih =>
    intro htmp
    rcases Nat.mod_two_eq_zero_or_one tmp with h2 | h2
    · have hhalf : tmp / 2 ≠ 0 := by omega
      have hlt : tmp / 2 < tmp := Nat.div_lt_self (Nat.pos_of_ne_zero htmp) one_lt_two
      obtain ⟨v, m, hm, heq, hrun⟩ := ih (tmp / 2) hlt hhalf
      refine ⟨v + 1, m, hm, ?_, ?_⟩
      · calc tmp = 2 * (tmp / 2) := by omega
          _ = 2 * (2 ^ v * m) := by rw [heq]
          _ = 2 ^ (v + 1) * m := by ring
      · intro fuel hfuel x
        obtain ⟨f, rfl⟩ : ∃ f, fuel = f + 1 := ⟨fuel - 1, by omega⟩
        have hstep : stripTwosFuel (f + 1) x tmp = stripTwosFuel f (x + 1) (tmp / 2) := by
          simp [stripTwosFuel, h2]
        rw [hstep, hrun f (by omega) (x + 1)]
        have hx : x + 1 + v = x + (v + 1) := by omega
        rw [hx]
    · refine ⟨0, tmp, h2, by ring, ?_⟩
      intro fuel hfuel x
      obtain ⟨f, rfl⟩ : ∃ f, fuel = f + 1 := ⟨fuel - 1, by omega⟩
      simp [stripTwosFuel, h2]

theorem pow2_mul_odd_inj :
    ∀ v1 m1 v2 m2 : Nat, m1 % 2 = 1 → m2 % 2 = 1 →
      2 ^ v1 * m1 = 2 ^ v2 * m2 → v1 = v2 ∧ m1 = m2 := by
  intro v1
  induction v1 with
  | zero =>
    intro m1 v2 m2 h1 h2 heq
    cases v2 with
    | zero => exact ⟨rfl, by simpa using heq⟩
    | succ w =>
      exfalso
      rw [pow_zero, one_mul] at heq
      have hre : m1 = 2 * (2 ^ w * m2) := by rw [heq]; ring
      omega
  | succ u ih =>
    intro m1 v2 m2 h1 h2 heq
    cases v2 with
    | zero =>
      exfalso
      rw [pow_zero, one_mul] at heq
      have hre : m2 = 2 * (2 ^ u * m1) := by rw [← heq]; ring
      omega
    | succ w =>
      have heq' : 2 ^ u * m1 = 2 ^ w * m2 := by
        have hdouble : 2 * (2 ^ u * m1) = 2 * (2 ^ w * m2) := by
          calc 2 * (2 ^ u * m1) = 2 ^ (u + 1) * m1 := by ring
            _ = 2 ^ (w + 1) * m2 := heq
            _ = 2 * (2 ^ w * m2) := by ring
        omega
      obtain ⟨hv, hm⟩ := ih m1 w m2 h1 h2 heq'
      exact ⟨by omega, hm⟩

theorem stripTwosFuel_encode (x y : Nat) :
    ∀ fuel, encode_pair1 x y ≤ fuel → ∀ c,
      stripTwosFuel fuel c (encode_pair1 x y) = some (c + x, 2 * y + 1) := by
  intro fuel hfuel c
  have hne : encode_pair1 x y ≠ 0 := Nat.pos_iff_ne_zero.mp (encode_pair1_pos x y)
  obtain ⟨v, m, hm, heq, hrun⟩ := stripTwosFuel_spec (encode_pair1 x y) hne
  have heq2 : 2 ^ v * m = 2 ^ x * (2 * y + 1) := by
    rw [← heq]
    rfl
  obtain ⟨hv, hm2⟩ := pow2_mul_odd_inj v m x (2 * y + 1) hm (by omega) heq2
  subst hv
  subst hm2
  exact hrun fuel hfuel c

theorem decode_pair1_encode (x y : Nat) :
    decode_pair1 (encode_pair1 x y) = (x, y) := by
  unfold decode_pair1
  rw [stripTwosFuel_encode x y (encode_pair1 x y) (le_refl _) 0]
  simp

theorem decode_pair2_encode (x y : Nat) :
    decode_pair2 (encode_pair2 x y) = (x, y) := by
  unfold decode_pair2 encode_pair2
  rw [Nat.sub_add_cancel (encode_pair1_pos x y)]
  exact decode_pair1_encode x y

theorem decode_pair1_spec (a : Nat) (ha : a ≠ 0) :
    ∃ v m, m % 2 = 1 ∧ a = 2 ^ v * m ∧ decode_pair1 a = (v, (m - 1) / 2) := by
  obtain ⟨v, m, hm, heq, hrun⟩ := stripTwosFuel_spec a ha
  refine ⟨v, m, hm, heq, ?_⟩
  unfold decode_pair1
  rw [hrun a (le_refl a) 0]
  simp

theorem decode_pair1_snd_lt (a : Nat) (ha : a ≠ 0) :
    (decode_pair1 a).2 < a := by
  obtain ⟨v, m, hm, heq, hdec⟩ := decode_pair1_spec a ha
  have hle : m ≤ a := by
    rw [heq]
    exact Nat.le_mul_of_pos_left _ (pow_pos (by norm_num) v)
  rw [hdec]
  simp only
  omega

/-
Helper lemmas about the list codec.
-/

theorem encode_list_to_godel_cons (v : Nat) (t : List Nat) :
    encode_list_to_godel (v :: t) = encode_pair1 v (encode_list_to_godel t) := by
  unfold encode_list_to_godel
  rw [List.reverse_cons, List.foldl_append]
  rfl

theorem decode_godel_fuel_encode :
    ∀ (L : List Nat) (fuel : Nat), encode_list_to_godel L ≤ fuel →
      decode_godel_fuel fuel (encode_list_to_godel L) = some L := by
  intro L
  induction L with
  | nil =>
    intro fuel _
    cases fuel <;> simp [decode_godel_fuel, encode_list_to_godel]
  | cons v t ih =>
    intro fuel hfuel
    rw [encode_list_to_godel_cons] at hfuel ⊢
    have hpos := encode_pair1_pos v (encode_list_to_godel t)
    obtain ⟨f, rfl⟩ : ∃ f, fuel = f + 1 := ⟨fuel - 1, by omega⟩
    have hne : encode_pair1 v (encode_list_to_godel t) ≠ 0 := by omega
    have hlt := lt_encode_pair1 v (encode_list_to_godel t)
    unfold decode_godel_fuel
    rw [if_neg hne,
      stripTwosFuel_encode v (encode_list_to_godel t) _ (le_refl _) 0]
    have hrest : (2 * encode_list_to_godel t + 1 - 1) / 2 =
        encode_list_to_godel t := by omega
    simp only [Nat.zero_add, hrest, ih f (by omega)]

theorem decode_godel_fuel_total :
    ∀ (fuel n : Nat), n ≤ fuel → ∃ l, decode_godel_fuel fuel n = some l := by
  intro fuel
  induction fuel with
  | zero =>
    intro n hn
    have hz : n = 0 := by omega
    subst hz
    exact ⟨[], rfl⟩
  | succ f ih =>
    intro n hn
    by_cases hz : n = 0
    · subst hz
      exact ⟨[], rfl⟩
    · obtain ⟨v, m, hm, heq, hrun⟩ := stripTwosFuel_spec n hz
      have hmle : m ≤ n := by
        rw [heq]
        exact Nat.le_mul_of_pos_left _ (pow_pos (by norm_num) v)
      obtain ⟨l, hl⟩ := ih ((m - 1) / 2) (by omega)
      refine ⟨v :: l, ?_⟩
      unfold decode_godel_fuel
      rw [if_neg hz, hrun n (le_refl n) 0]
      simp only [Nat.zero_add, hl]

theorem encode_decode_godel_fuel :
    ∀ (fuel n : Nat), n ≤ fuel → ∀ l, decode_godel_fuel fuel n = some l →
      encode_list_to_godel l = n := by
  intro fuel
  induction fuel with
  | zero =>
    intro n hn l hl
    have hz : n = 0 := by omega
    subst hz
    simp [decode_godel_fuel] at hl
    subst hl
    rfl
  | succ f ih =>
    intro n hn l hl
    by_cases hz : n = 0
    · subst hz
      simp [decode_godel_fuel] at hl
      subst hl
      rfl
    · obtain ⟨v, m, hm, heq, hrun⟩ := stripTwosFuel_spec n hz
      unfold decode_godel_fuel at hl
      rw [if_neg hz, hrun n (le_refl n) 0] at hl
      simp only [Nat.zero_add] at hl
      rcases hrest : decode_godel_fuel f ((m - 1) / 2) with _ | rest
      · rw [hrest] at hl
        simp at hl
      · rw [hrest] at hl
        simp at hl
        have hmle : m ≤ n := by
          rw [heq]
          exact Nat.le_mul_of_pos_left _ (pow_pos (by norm_num) v)
        have henc := ih ((m - 1) / 2) (by omega) rest hrest
        rw [← hl, encode_list_to_godel_cons, henc]
        unfold encode_pair1
        rw [heq]
        congr 1
        omega

/-
Helper lemmas about the evaluator.
-/

theorem regGet_regInsert_self (m : Regs) (r v : Nat) :
    regGet (regInsert m r v) r = some v := by
  induction m with
  | nil => simp [regInsert, regGet]
  | cons hd t ih =>
    obtain ⟨k, w⟩ := hd
    by_cases hk : k = r
    · subst hk
      simp [regInsert, regGet]
    · simp [regInsert, regGet, hk, ih]

theorem evalProgramFuel_mono :
    ∀ (f : Nat) (p : List Instruction) (s r : State) (g : Nat),
      evalProgramFuel f p s = some r → f ≤ g →
      evalProgramFuel g p s = some r := by
  intro f
  induction f with
  | zero =>
    intro p s r g h
    simp [evalProgramFuel] at h
  | succ f ih =>
    intro p s r g h hg
    obtain ⟨g', rfl⟩ : ∃ g', g = g' + 1 := ⟨g - 1, by omega⟩
    unfold evalProgramFuel at h ⊢
    rcases hstep : step p s with _ | s'
    · rw [hstep] at h
      exact h
    · rw [hstep] at h
      exact ih p s' r g' h (by omega)

theorem evalProgram_det (p : List Instruction) (s r1 r2 : State)
    (h1 : EvalProgram p s r1) (h2 : EvalProgram p s r2) : r1 = r2 := by
  obtain ⟨f1, hf1⟩ := h1
  obtain ⟨f2, hf2⟩ := h2
  have e1 := evalProgramFuel_mono f1 p s r1 (max f1 f2) hf1 (le_max_left _ _)
  have e2 := evalProgramFuel_mono f2 p s r2 (max f1 f2) hf2 (le_max_right _ _)
  rw [e1] at e2
  exact Option.some.inj e2

theorem step_none_of_le (p : List Instruction) (s : State)
    (h : p.length ≤ s.1) : step p s = none := by
  unfold step
  rw [dif_neg (by omega)]

/-
Helper lemmas about the program codec.
-/

theorem decodeInstr_encodeInstr (i : Instruction)
    (hi : i.encodableB = true) : decodeInstr (encodeInstr i) = Except.ok i := by
  have h64 : (2 : Nat) ^ 64 = 2 * 2 ^ 63 := by ring
  cases i with
  | Halt => rfl
  | Add r l =>
    simp only [Instruction.encodableB, Bool.and_eq_true, decide_eq_true_eq] at hi
    obtain ⟨hr, hl⟩ := hi
    have hmod : (2 * r) % 2 ^ 64 = 2 * r := Nat.mod_eq_of_lt (by omega)
    have hne : encode_pair1 (2 * r) l ≠ 0 := by
      have := encode_pair1_pos (2 * r) l
      omega
    have hr64 : r < 2 ^ 64 := by omega
    have hdiv : 2 * r / 2 = r := by omega
    show decodeInstr (encode_pair1 ((2 * r) % 2 ^ 64) l) =
      Except.ok (Instruction.Add r l)
    rw [hmod]
    unfold decodeInstr
    rw [if_neg hne, decode_pair1_encode (2 * r) l]
    have hra : r < 18446744073709551616 := by omega
    have hla : l < 18446744073709551616 := by omega
    simp [toU64, toUsize, Nat.mul_mod_right, hdiv, hra, hla]
  | Sub r l1 l2 =>
    simp only [Instruction.encodableB, Bool.and_eq_true, decide_eq_true_eq] at hi
    obtain ⟨⟨hr, hl1⟩, hl2⟩ := hi
    have hmod1 : (2 * r) % 2 ^ 64 = 2 * r := Nat.mod_eq_of_lt (by omega)
    have hmod2 : (2 * r + 1) % 2 ^ 64 = 2 * r + 1 := Nat.mod_eq_of_lt (by omega)
    have hne : encode_pair1 (2 * r + 1) (encode_pair2 l1 l2) ≠ 0 := by
      have := encode_pair1_pos (2 * r + 1) (encode_pair2 l1 l2)
      omega
    have hodd : (2 * r + 1) % 2 = 1 := by omega
    have hdiv : (2 * r + 1 - 1) / 2 = r := by omega
    have hr64 : r < 2 ^ 64 := by omega
    show decodeInstr
        (encode_pair1 (((2 * r) % 2 ^ 64 + 1) % 2 ^ 64) (encode_pair2 l1 l2)) =
      Except.ok (Instruction.Sub r l1 l2)
    rw [hmod1, hmod2]
    unfold decodeInstr
    rw [if_neg hne, decode_pair1_encode (2 * r + 1) (encode_pair2 l1 l2)]
    have hra : r < 18446744073709551616 := by omega
    have hl1a : l1 < 18446744073709551616 := by omega
    have hl2a : l2 < 18446744073709551616 := by omega
    simp [toU64, toUsize, hodd, hdiv, hra, hl1a, hl2a, decode_pair2_encode]

/-
Claim theorems.
-/

/-- C1 (counterexample): the program/list round trip claimed for every
program fails on `[Add (2^63) 0]`: the `u64` doubling of the register
wraps to `0`, so the element encodes to `1` and decodes back to
`Add 0 0`. -/
theorem c1_counterexample :
    decode_list_to_program
        (encode_program_to_list [Instruction.Add (2 ^ 63) 0]) =
      Except.ok [Instruction.Add 0 0] ∧
    decode_list_to_program
        (encode_program_to_list [Instruction.Add (2 ^ 63) 0]) ≠
      Except.ok [Instruction.Add (2 ^ 63) 0] := by
  constructor <;> decide

/-- C1 (amended): for every program whose register identifiers are below
`2^63` (so the `u64` doubling cannot overflow) and whose labels are
below `2^64` (representable in `usize`), decoding the encoded list
yields the program back. -/
theorem c1_program_round_trip (P : List Instruction)
    (hP : ∀ i ∈ P, i.encodableB = true) :
    decode_list_to_program (encode_program_to_list P) = Except.ok P := by
  induction P with
  | nil => rfl
  | cons i t ih =>
    have hi := hP i (List.mem_cons_self i t)
    have ht := ih fun j hj => hP j (List.mem_cons_of_mem i hj)
    show decode_list_to_program (encodeInstr i :: encode_program_to_list t) =
      Except.ok (i :: t)
    unfold decode_list_to_program
    rw [decodeInstr_encodeInstr i hi, ht]

/-- C1 (witness): the amended round trip at the repository's own test
program `[Sub 0 2 1, Halt, Sub 0 0 1, Add 0 0]`. -/
theorem c1_program_round_trip_witness :
    decode_list_to_program
        (encode_program_to_list
          [Instruction.Sub 0 2 1, Instruction.Halt,
            Instruction.Sub 0 0 1, Instruction.Add 0 0]) =
      Except.ok
        [Instruction.Sub 0 2 1, Instruction.Halt,
          Instruction.Sub 0 0 1, Instruction.Add 0 0] :=
  c1_program_round_trip
    [Instruction.Sub 0 2 1, Instruction.Halt,
      Instruction.Sub 0 0 1, Instruction.Add 0 0] (by decide)

/-- C2: the Gödel-number/list codec is a bijection: decoding after
encoding recovers every finite list, encoding after decoding recovers
every natural number, and the empty list encodes to `0`. -/
theorem c2_godel_list_round_trip :
    (∀ L : List Nat, decode_godel_to_list (encode_list_to_godel L) = L) ∧
    (∀ n : Nat, encode_list_to_godel (decode_godel_to_list n) = n) ∧
    encode_list_to_godel [] = 0 := by
  refine ⟨?_, ?_, rfl⟩
  · intro L
    unfold decode_godel_to_list
    rw [decode_godel_fuel_encode L _ (le_refl _)]
    rfl
  · intro n
    obtain ⟨l, hl⟩ := decode_godel_fuel_total n n (le_refl n)
    unfold decode_godel_to_list
    rw [hl, Option.getD_some]
    exact encode_decode_godel_fuel n n (le_refl n) l hl

/-- C3: both pairing functions round-trip:
`decode_pair1 (encode_pair1 x y) = (x, y)` and
`decode_pair2 (encode_pair2 x y) = (x, y)` for all naturals `x`, `y`. -/
theorem c3_pairing_round_trip (x y : Nat) :
    decode_pair1 (encode_pair1 x y) = (x, y) ∧
    decode_pair2 (encode_pair2 x y) = (x, y) :=
  ⟨decode_pair1_encode x y, decode_pair2_encode x y⟩

/-- C4: one step of list decoding strictly decreases the remaining
number (`rest < n` whenever `n > 0`), and consequently the decode loop
of `decode_godel_to_list` terminates on every input (the fuelled loop
returns a result at fuel `a` for every `a`). -/
theorem c4_decode_step_decreases :
    (∀ n : Nat, 0 < n → (decode_pair1 n).2 < n) ∧
    (∀ a : Nat, ∃ l, decode_godel_fuel a a = some l) :=
  ⟨fun n hn => decode_pair1_snd_lt n (by omega),
   fun a => decode_godel_fuel_total a a (le_refl a)⟩

/-- C4 (witness): the strict decrease at the concrete input `12`
(`decode_pair1 12 = (2, 1)` and `1 < 12`). -/
theorem c4_decode_step_decreases_witness :
    (decode_pair1 12).2 < 12 :=
  c4_decode_step_decreases.1 12 (by norm_num)

/-- C5: running the six-instruction sample program from label 0 with
registers `{0: 0, 1: 7}` terminates and returns exactly label 4 with
registers `{0: 2, 1: 0}` (and no other result is possible). -/
theorem c5_sample_program_run :
    EvalProgram sampleProgram (0, [(0, 0), (1, 7)]) (4, [(0, 2), (1, 0)]) ∧
    ∀ s', EvalProgram sampleProgram (0, [(0, 0), (1, 7)]) s' →
      s' = (4, [(0, 2), (1, 0)]) := by
  have hrun : EvalProgram sampleProgram (0, [(0, 0), (1, 7)])
      (4, [(0, 2), (1, 0)]) := ⟨20, by decide⟩
  exact ⟨hrun, fun s' h' => evalProgram_det _ _ _ _ h' hrun⟩

/-- C5 (witness): the uniqueness part applied to the computed final
state itself, with the termination hypothesis discharged at fuel 20. -/
theorem c5_sample_program_run_witness :
    ((4, [(0, 2), (1, 0)]) : State) = ((4, [(0, 2), (1, 0)]) : State) :=
  c5_sample_program_run.2 (4, [(0, 2), (1, 0)]) ⟨20, by decide⟩

/-- C6: whenever the initial label is at least the program length,
`eval_program` terminates immediately and returns the input state
unchanged, and that is the only possible result. -/
theorem c6_out_of_range_label (p : List Instruction) (s : State)
    (h : p.length ≤ s.1) :
    EvalProgram p s s ∧ ∀ s', EvalProgram p s s' → s' = s := by
  have hrun : EvalProgram p s s := by
    refine ⟨1, ?_⟩
    unfold evalProgramFuel
    rw [step_none_of_le p s h]
  exact ⟨hrun, fun s' h' => evalProgram_det p s s' s h' hrun⟩

/-- C6 (witness): the one-instruction program `[Halt]` started at the
out-of-range label 5 returns its state unchanged. -/
theorem c6_out_of_range_label_witness :
    EvalProgram [Instruction.Halt] (5, [(0, 3)]) (5, [(0, 3)]) :=
  (c6_out_of_range_label [Instruction.Halt] (5, [(0, 3)]) (by decide)).1

/-- C7: executing `Sub r l1 l2` (`DecrementOrBranch`) when register `r`
reads as zero (absent registers read as zero) moves to label `l2` with
register `r` present and equal to 0; when `r` is nonzero it moves to
label `l1` with register `r` decremented by exactly one. -/
theorem c7_sub_semantics (p : List Instruction) (s : State) (r l1 l2 : Nat)
    (h : s.1 < p.length) (hi : p.get ⟨s.1, h⟩ = Instruction.Sub r l1 l2) :
    ((regGet s.2 r).getD 0 = 0 →
      ∃ m, step p s = some (l2, m) ∧ regGet m r = some 0) ∧
    ((regGet s.2 r).getD 0 ≠ 0 →
      ∃ m, step p s = some (l1, m) ∧
        regGet m r = some ((regGet s.2 r).getD 0 - 1)) := by
  have hstep : step p s =
      (let v := (regGet s.2 r).getD 0
       let m := regInsert s.2 r v
       if v = 0 then some (l2, m) else some (l1, regInsert m r (v - 1))) := by
    unfold step
    rw [dif_pos h, hi]
  constructor
  · intro hv
    refine ⟨regInsert s.2 r 0, ?_, regGet_regInsert_self _ _ _⟩
    rw [hstep]
    simp [hv]
  · intro hv
    refine ⟨regInsert (regInsert s.2 r ((regGet s.2 r).getD 0)) r
      ((regGet s.2 r).getD 0 - 1), ?_, regGet_regInsert_self _ _ _⟩
    rw [hstep]
    simp [hv]

/-- C7 (witness): `Sub 0 7 9` in a state where register 0 is absent
branches to label 9 and materializes register 0 with value 0. -/
theorem c7_sub_semantics_witness :
    ∃ m, step [Instruction.Sub 0 7 9] (0, []) = some (9, m) ∧
      regGet m 0 = some 0 :=
  (c7_sub_semantics [Instruction.Sub 0 7 9] (0, []) 0 7 9 (by decide) rfl).1 rfl

/-- C8: a Gödel-list element whose implied register id or label exceeds
the fixed-width range makes the element decode fail with an explicit
`ConvError` (the `u64` overflow for registers, the `usize` overflow for
labels) — in the even-parity `Add` shape (register `y/2`, label `z`) as
well as in the odd-parity `Sub` shape (register `(y-1)/2`, labels `j`
and `k`, the branch's three conversions in evaluation order) — and any
such element inside a list makes the whole `decode_list_to_program`
call fail, yielding no program at all. -/
theorem c8_conversion_overflow :
    (∀ (L : List Nat) (a : Nat), a ∈ L →
        (∃ e, decodeInstr a = Except.error e) →
        ∃ e, decode_list_to_program L = Except.error e) ∧
    (∀ a : Nat, a ≠ 0 → (decode_pair1 a).1 % 2 = 0 →
        2 ^ 64 ≤ (decode_pair1 a).1 / 2 →
        decodeInstr a = Except.error ConvError.overflowU64) ∧
    (∀ a : Nat, a ≠ 0 → (decode_pair1 a).1 % 2 = 0 →
        (decode_pair1 a).1 / 2 < 2 ^ 64 → 2 ^ 64 ≤ (decode_pair1 a).2 →
        decodeInstr a = Except.error ConvError.overflowUsize) ∧
    (∀ a : Nat, a ≠ 0 → (decode_pair1 a).1 % 2 = 1 →
        2 ^ 64 ≤ ((decode_pair1 a).1 - 1) / 2 →
        decodeInstr a = Except.error ConvError.overflowU64) ∧
    (∀ a : Nat, a ≠ 0 → (decode_pair1 a).1 % 2 = 1 →
        ((decode_pair1 a).1 - 1) / 2 < 2 ^ 64 →
        2 ^ 64 ≤ (decode_pair2 ((decode_pair1 a).2)).1 →
        decodeInstr a = Except.error ConvError.overflowUsize) ∧
    (∀ a : Nat, a ≠ 0 → (decode_pair1 a).1 % 2 = 1 →
        ((decode_pair1 a).1 - 1) / 2 < 2 ^ 64 →
        (decode_pair2 ((decode_pair1 a).2)).1 < 2 ^ 64 →
        2 ^ 64 ≤ (decode_pair2 ((decode_pair1 a).2)).2 →
        decodeInstr a = Except.error ConvError.overflowUsize) := by
  refine ⟨?_, ?_, ?_, ?_, ?_, ?_⟩
  · intro L
    induction L with
    | nil =>
      intro a ha _
      simp at ha
    | cons p t ih =>
      intro a ha he
      obtain ⟨e, he⟩ := he
      rcases List.mem_cons.mp ha with rfl | hmem
      · refine ⟨e, ?_⟩
        unfold decode_list_to_program
        rw [he]
      · obtain ⟨e', he'⟩ := ih a hmem ⟨e, he⟩
        rcases hd : decodeInstr p with e2 | i
        · refine ⟨e2, ?_⟩
          unfold decode_list_to_program
          rw [hd]
        · refine ⟨e', ?_⟩
          unfold decode_list_to_program
          rw [hd, he']
  · intro a ha h2 hbig
    unfold decodeInstr toU64
    rw [if_neg ha]
    simp only [h2, if_pos, if_neg (by omega : ¬ (decode_pair1 a).1 / 2 < 2 ^ 64)]
  · intro a ha h2 hr hbig
    unfold decodeInstr toU64 toUsize
    rw [if_neg ha]
    simp only [h2, if_pos, if_pos hr,
      if_neg (by omega : ¬ (decode_pair1 a).2 < 2 ^ 64)]
  · intro a ha h2 hbig
    unfold decodeInstr toU64
    rw [if_neg ha]
    simp only [h2, if_neg (by omega : ¬ (1 : Nat) = 0),
      if_neg (by omega : ¬ ((decode_pair1 a).1 - 1) / 2 < 2 ^ 64)]
  · intro a ha h2 hr hbig
    unfold decodeInstr toU64 toUsize
    rw [if_neg ha]
    simp only [h2, if_neg (by omega : ¬ (1 : Nat) = 0), if_pos hr,
      if_neg (by omega : ¬ (decode_pair2 ((decode_pair1 a).2)).1 < 2 ^ 64)]
  · intro a ha h2 hr hj hbig
    unfold decodeInstr toU64 toUsize
    rw [if_neg ha]
    simp only [h2, if_neg (by omega : ¬ (1 : Nat) = 0), if_pos hr, if_pos hj,
      if_neg (by omega : ¬ (decode_pair2 ((decode_pair1 a).2)).2 < 2 ^ 64)]

/-- C8 (witness): the Add-shaped element `2^65 + 1` implies the label
`2^64`, and the Sub-shaped element `2^67 + 2` implies the second jump
target `2^64`; neither fits in `usize`, so both decodes fail with the
overflow error, and the list `[2^65 + 1]` decodes to no program. -/
theorem c8_conversion_overflow_witness :
    decodeInstr (2 ^ 65 + 1) = Except.error ConvError.overflowUsize ∧
    decodeInstr (2 ^ 67 + 2) = Except.error ConvError.overflowUsize ∧
    ∃ e, decode_list_to_program [2 ^ 65 + 1] = Except.error e := by
  refine ⟨?_, ?_, ?_⟩
  · exact c8_conversion_overflow.2.2.1 (2 ^ 65 + 1) (by decide) (by decide)
      (by decide) (by decide)
  · exact c8_conversion_overflow.2.2.2.2.2 (2 ^ 67 + 2) (by decide) (by decide)
      (by decide) (by decide) (by decide)
  · exact c8_conversion_overflow.1 [2 ^ 65 + 1] (2 ^ 65 + 1)
      (List.mem_singleton.mpr rfl)
      ⟨ConvError.overflowUsize,
        c8_conversion_overflow.2.2.1 (2 ^ 65 + 1) (by decide) (by decide)
          (by decide) (by decide)⟩

/-- C9: the register doubling inside `encode_program_to_list` happens in
`u64` arithmetic: below `2^63` it agrees with the exact formulas
`pair1(2r, l)` and `pair1(2r + 1, pair2(l1, l2))`; the embedding is the
wrap-around `(2 * r) % 2^64`, and at `r = 2^63` the wrapped encoding
differs from the exact formula. -/
theorem c9_encode_u64_doubling :
    (∀ r l : Nat, r < 2 ^ 63 →
        encodeInstr (Instruction.Add r l) = encode_pair1 (2 * r) l) ∧
    (∀ r l1 l2 : Nat, r < 2 ^ 63 →
        encodeInstr (Instruction.Sub r l1 l2) =
          encode_pair1 (2 * r + 1) (encode_pair2 l1 l2)) ∧
    (∀ r l : Nat,
        encodeInstr (Instruction.Add r l) =
          encode_pair1 ((2 * r) % 2 ^ 64) l) ∧
    (∃ r l : Nat, 2 ^ 63 ≤ r ∧ r < 2 ^ 64 ∧
        encodeInstr (Instruction.Add r l) ≠ encode_pair1 (2 * r) l) := by
  have h64 : (2 : Nat) ^ 64 = 2 * 2 ^ 63 := by ring
  refine ⟨?_, ?_, fun r l => rfl, ?_⟩
  · intro r l hr
    show encode_pair1 ((2 * r) % 2 ^ 64) l = encode_pair1 (2 * r) l
    rw [Nat.mod_eq_of_lt (by omega)]
  · intro r l1 l2 hr
    show encode_pair1 (((2 * r) % 2 ^ 64 + 1) % 2 ^ 64) (encode_pair2 l1 l2) =
      encode_pair1 (2 * r + 1) (encode_pair2 l1 l2)
    rw [Nat.mod_eq_of_lt (by omega : 2 * r < 2 ^ 64),
      Nat.mod_eq_of_lt (by omega : 2 * r + 1 < 2 ^ 64)]
  · refine ⟨2 ^ 63, 0, le_refl _, by omega, ?_⟩
    intro hcontra
    have hdec := decode_pair1_encode (2 * 2 ^ 63) 0
    rw [← hcontra] at hdec
    have hdec1 : decode_pair1 (encodeInstr (Instruction.Add (2 ^ 63) 0)) =
        (0, 0) := by decide
    rw [hdec1] at hdec
    have h0 : (0 : Nat) = 2 * 2 ^ 63 := congrArg Prod.fst hdec
    omega

/-- C9 (witness): the exact formula holds at the concrete in-range
register `3`: `encode(Add 3 5) = pair1(6, 5)`. -/
theorem c9_encode_u64_doubling_witness :
    encodeInstr (Instruction.Add 3 5) = encode_pair1 6 5 :=
  c9_encode_u64_doubling.1 3 5 (by norm_num)

/-- C10: the factor-of-two-stripping loop never terminates on input `0`
(every fuel is exhausted), it terminates on every nonzero input (fuel
equal to the input suffices), and `decode_list_to_program`'s explicit
zero test maps `0` straight to `Halt` without entering the loop. -/
theorem c10_decode_loop_termination :
    (∀ fuel x : Nat, stripTwosFuel fuel x 0 = none) ∧
    (∀ a : Nat, a ≠ 0 → (stripTwosFuel a 0 a).isSome = true) ∧
    decodeInstr 0 = Except.ok Instruction.Halt := by
  refine ⟨?_, ?_, rfl⟩
  · intro fuel
    induction fuel with
    | zero => intro x; rfl
    | succ f ih =>
      intro x
      simp [stripTwosFuel, ih]
  · intro a ha
    obtain ⟨v, m, hm, heq, hrun⟩ := stripTwosFuel_spec a ha
    rw [hrun a (le_refl a) 0]
    rfl

/-- C10 (witness): the strip loop terminates at the concrete nonzero
input `6`. -/
theorem c10_decode_loop_termination_witness :
    (stripTwosFuel 6 0 6).isSome = true :=
  c10_decode_loop_termination.2.1 6 (by norm_num)

end RegisterMachines
